import Mathlib

/-!
Verification of the quantitative core of the `backtrader_options` repository:
the Black-Scholes pricer and greeks (`utils/options_pricing.py`), the bisection
implied-volatility solver, the synthetic option-chain generator, and the
decision/state logic of the two strategy classes
(`strategies/iron_condor_strategy.py`, `strategies/put_selling_strategy.py`).

Discrete control flow and decimal arithmetic are embedded over `ℚ`/`ℤ`
(executable); the real-valued pricing formulas are embedded over `ℝ` with the
standard-normal CDF defined as a Lebesgue integral of the Gaussian density.
-/

open Real MeasureTheory Set

namespace BacktraderOptions

/-! ### Option-chain strike ladder (`utils/options_pricing.py`, `simulate_option_chain`)

`strike_range = np.linspace(0.8*S, 1.2*S, 9)`; `strikes = [round(s, 2) for s in strike_range]`.
Python `round` ties to the even neighbour (banker's rounding); we model it
exactly over `ℚ`. -/

/-- Round to the nearest integer, ties to even (Python `round` semantics). -/
def roundHalfEven (x : ℚ) : ℤ :=
  let n := ⌊x⌋
  let r := x - (n : ℚ)
  if r < 1/2 then n
  else if 1/2 < r then n + 1
  else if n % 2 = 0 then n else n + 1

/-- Python `round(x, 2)`: round to two decimal places. -/
def round2 (x : ℚ) : ℚ := (roundHalfEven (100 * x) : ℚ) / 100

/-- The strike ladder of `simulate_option_chain`: nine evenly spaced strikes
from `0.8 * underlying_price` to `1.2 * underlying_price`
(`np.linspace` with 9 points has step `(1.2*S - 0.8*S)/8`), each rounded to
2 decimals. -/
def chain_strikes (underlying_price : ℚ) : List ℚ :=
  (List.range 9).map fun i : ℕ =>
    round2 (underlying_price * (4/5) + (i : ℚ) * (underlying_price * (2/5) / 8))

/-! ### Iron-condor exit decision (`iron_condor_strategy.py`, `manage_iron_condor`) -/

/-- Reason reported when `manage_iron_condor` closes the position. -/
inductive ExitReason where
  | approachingExpiration
  | profitTarget
  | stopLoss
deriving DecidableEq, Repr

/-- `profit_pct = current_profit / max_profit if self.max_profit > 0 else 0`
(line 190 of `iron_condor_strategy.py`). -/
def profit_fraction (entry_credit current_value max_profit : ℚ) : ℚ :=
  if max_profit > 0 then (entry_credit - current_value) / max_profit else 0

/-- The exit decision chain of `manage_iron_condor` (lines 187-217):
`profit_pct = current_profit / max_profit if max_profit > 0 else 0`, then the
`if / elif / elif` ladder on days-left, profit target and stop loss.
Returns `none` when no exit condition fires. -/
def manage_exit (days_left exit_days_left : ℤ)
    (entry_credit current_value max_profit profit_target_pct loss_stop_pct : ℚ) :
    Option ExitReason :=
  let current_profit := entry_credit - current_value
  let profit_pct := profit_fraction entry_credit current_value max_profit
  if days_left ≤ exit_days_left then some .approachingExpiration
  else if profit_pct ≥ profit_target_pct then some .profitTarget
  else if current_profit < 0 ∧ |current_profit| > max_profit * loss_stop_pct then some .stopLoss
  else none

/-! ### Put-selling entry (`put_selling_strategy.py`, `consider_new_position`) -/

/-- The position record committed by `consider_new_position`. -/
structure PSPosition where
  entry_price : ℚ
  strike_price : ℚ
  num_contracts : ℤ
deriving DecidableEq, Repr

/-- `consider_new_position` (lines 192-246): entry only when price is above the
moving average; strike `= price * (1 - put_delta)`; premium
`= price * 0.2 * 1.0 * put_delta`; contracts
`= max(1, floor(max_risk / ((strike - premium) * 100)))`; commit only when the
margin requirement `strike * contracts * 100` fits in available cash, else the
trade is skipped (`none`, lifecycle stays IDLE). -/
def consider_new_position (current_price sma cash portfolio_value
    put_delta risk_percentage : ℚ) : Option PSPosition :=
  if sma < current_price then
    let strike_price := current_price * (1 - put_delta)
    let implied_vol : ℚ := 2/10
    let time_factor : ℚ := 1
    let option_premium := current_price * implied_vol * time_factor * put_delta
    let max_risk := portfolio_value * risk_percentage
    let max_loss_per_contract := (strike_price - option_premium) * 100
    let num_contracts : ℤ := max 1 ⌊max_risk / max_loss_per_contract⌋
    let margin_requirement := strike_price * (num_contracts : ℚ) * 100
    if margin_requirement ≤ cash then
      some ⟨option_premium, strike_price, num_contracts⟩
    else none
  else none

/-! ### Standard normal distribution (models `scipy.stats.norm`) -/

/-- Density of the standard normal distribution (`scipy.stats.norm.pdf`). -/
noncomputable def normPdf (t : ℝ) : ℝ :=
  (Real.sqrt (2 * Real.pi))⁻¹ * Real.exp (-t ^ 2 / 2)

/-- Cumulative distribution function of the standard normal distribution
(`scipy.stats.norm.cdf`). -/
noncomputable def normCdf (x : ℝ) : ℝ := ∫ t in Iic x, normPdf t

/-- Python `str.lower()` (ASCII case folding, which covers every string the
pricing code compares against `'call'`). -/
def lower (s : String) : String := ⟨s.data.map Char.toLower⟩

/-! ### Pricing model (`utils/options_pricing.py`) -/

/-- `black_scholes(S, K, T, r, sigma, option_type)` (lines 10-45): degenerate
inputs return 0; otherwise the standard closed form, with the put branch taken
for every `option_type` whose lowercasing is not `'call'`. -/
noncomputable def black_scholes (S K T r sigma : ℝ) (option_type : String) : ℝ :=
  if S ≤ 0 ∨ K ≤ 0 ∨ T ≤ 0 ∨ sigma ≤ 0 then 0
  else
    let d1 := (Real.log (S / K) + (r + sigma ^ 2 / 2) * T) / (sigma * Real.sqrt T)
    let d2 := d1 - sigma * Real.sqrt T
    if lower option_type = "call" then
      S * normCdf d1 - K * Real.exp (-r * T) * normCdf d2
    else
      K * Real.exp (-r * T) * normCdf (-d2) - S * normCdf (-d1)

/-- The greeks bundle returned by `calculate_greeks`. -/
structure Greeks where
  delta : ℝ
  gamma : ℝ
  theta : ℝ
  vega : ℝ
  rho : ℝ

/-- `calculate_greeks(S, K, T, r, sigma, option_type)` (lines 47-119):
degenerate inputs give the all-zero bundle; theta is converted to a daily
figure (`/ 365`), vega and rho are per percentage point (`/ 100`). -/
noncomputable def calculate_greeks (S K T r sigma : ℝ) (option_type : String) : Greeks :=
  if S ≤ 0 ∨ K ≤ 0 ∨ T ≤ 0 ∨ sigma ≤ 0 then ⟨0, 0, 0, 0, 0⟩
  else
    let sqrt_t := Real.sqrt T
    let d1 := (Real.log (S / K) + (r + sigma ^ 2 / 2) * T) / (sigma * sqrt_t)
    let d2 := d1 - sigma * sqrt_t
    let n_d1 := normPdf d1
    let delta := if lower option_type = "call" then normCdf d1 else -normCdf (-d1)
    let gamma := n_d1 / (S * sigma * sqrt_t)
    let term1 := -(S * sigma * n_d1) / (2 * sqrt_t)
    let theta :=
      (if lower option_type = "call" then
        term1 - r * K * Real.exp (-r * T) * normCdf d2
      else
        term1 + r * K * Real.exp (-r * T) * normCdf (-d2)) / 365
    let vega := S * sqrt_t * n_d1 / 100
    let rho :=
      if lower option_type = "call" then K * T * Real.exp (-r * T) * normCdf d2 / 100
      else -(K * T * Real.exp (-r * T) * normCdf (-d2)) / 100
    ⟨delta, gamma, theta, vega, rho⟩

/-- The bisection loop of `calculate_iv` (lines 166-180), with the remaining
iteration count as fuel; at fuel 0 the post-loop
`return (vol_low + vol_high) / 2` fires. -/
noncomputable def bisect_iv (S K T r : ℝ) (option_type : String)
    (market_price precision : ℝ) : ℕ → ℝ → ℝ → ℝ
  | 0, vol_low, vol_high => (vol_low + vol_high) / 2
  | n + 1, vol_low, vol_high =>
    let vol_mid := (vol_low + vol_high) / 2
    let price := black_scholes S K T r vol_mid option_type
    if |price - market_price| < precision then vol_mid
    else if price < market_price then
      bisect_iv S K T r option_type market_price precision n vol_mid vol_high
    else
      bisect_iv S K T r option_type market_price precision n vol_low vol_mid

/-- The early-exit event of the bisection loop: some iteration within the fuel
budget prices its midpoint within `precision` of the market price. -/
def bisect_hits (S K T r : ℝ) (option_type : String)
    (market_price precision : ℝ) : ℕ → ℝ → ℝ → Prop
  | 0, _, _ => False
  | n + 1, vol_low, vol_high =>
    let vol_mid := (vol_low + vol_high) / 2
    let price := black_scholes S K T r vol_mid option_type
    |price - market_price| < precision ∨
      (if price < market_price then
        bisect_hits S K T r option_type market_price precision n vol_mid vol_high
      else
        bisect_hits S K T r option_type market_price precision n vol_low vol_mid)

/-- `calculate_iv(market_price, S, K, T, r, option_type, precision,
max_iterations)` (lines 121-180): the intrinsic-value and theoretical-maximum
guards return the sentinels 0 and `vol_high = 5.0`; otherwise bisection runs
between `vol_low = 0.001` and `vol_high = 5.0`. -/
noncomputable def calculate_iv (market_price S K T r : ℝ) (option_type : String)
    (precision : ℝ) (max_iterations : ℕ) : ℝ :=
  if lower option_type = "call" then
    if market_price < max 0 (S - K) then 0
    else if market_price > S then 5
    else bisect_iv S K T r option_type market_price precision max_iterations 0.001 5
  else
    if market_price < max 0 (K - S) then 0
    else if market_price > K then 5
    else bisect_iv S K T r option_type market_price precision max_iterations 0.001 5

/-! ### Volatility estimator state (`iron_condor_strategy.py`) -/

/-- The volatility-related mutable state of `IronCondorStrategy`
(`__init__`, lines 56-82): rolling close history, 20-day historical
volatility, blended IV estimate, IV rank. -/
structure ICState where
  close_hist : List ℝ
  hv_20 : ℝ
  iv_estimate : ℝ
  iv_rank : ℝ

/-- Initial state (`__init__`): empty history, `hv_20 = 0`,
`iv_estimate = 0`, `iv_rank = 0`. -/
def icInit : ICState := ⟨[], 0, 0, 0⟩

/-- `calculate_historical_volatility` (lines 113-130): the 19 log returns
`log(close_hist[-i] / close_hist[-(i+1)])` for `i = 1..19` (i.e. over the most
recent 20 closes, scanned newest-first), their variance with divisor
`len(returns)`, square-rooted and annualized by `sqrt(252)`; below 20 closes
the previous value is kept (early `return`). -/
noncomputable def calculate_historical_volatility (close_hist : List ℝ) (hv_20 : ℝ) : ℝ :=
  if close_hist.length < 20 then hv_20
  else
    let returns := (List.range 19).map fun i : ℕ =>
      Real.log (close_hist.reverse.getD i 0 / close_hist.reverse.getD (i + 1) 0)
    let mean_return := returns.sum / (returns.length : ℝ)
    let variance := (returns.map fun rt => (rt - mean_return) ^ 2).sum / (returns.length : ℝ)
    let daily_vol := Real.sqrt variance
    daily_vol * Real.sqrt 252

/-- The close-history update in `next` (lines 91-93): append, then
`pop(0)` once the length exceeds 252. -/
def pushClose (close_hist : List ℝ) (price : ℝ) : List ℝ :=
  let h := close_hist ++ [price]
  if 252 < h.length then h.tail else h

/-- One bar of the volatility bookkeeping: the history/HV updates of `next`
(lines 91-97) followed by `estimate_implied_volatility` (lines 132-153), which
returns early below 20 closes and recomputes the clamped IV rank only once 252
closes exist, from the current ATR over twice the 20-period ATR average. -/
noncomputable def icStep (s : ICState) (price atr : ℝ) (atr_hist : List ℝ) : ICState :=
  let hist := pushClose s.close_hist price
  let hv := if 20 ≤ hist.length then calculate_historical_volatility hist s.hv_20 else s.hv_20
  if hist.length < 20 then
    { close_hist := hist, hv_20 := hv, iv_estimate := s.iv_estimate, iv_rank := s.iv_rank }
  else
    let atr_vol := atr / price
    let iv_estimate := atr_vol * Real.sqrt 252 * 0.5 + hv * 0.5
    let iv_rank :=
      if 252 ≤ hist.length then
        let avg_atr := (atr_hist.reverse.take 20).sum / 20
        min 1 (max 0 (atr / (2 * avg_atr)))
      else s.iv_rank
    { close_hist := hist, hv_20 := hv, iv_estimate := iv_estimate, iv_rank := iv_rank }

/-- Per-bar input supplied by the driver: close price, current ATR, and the
ATR history backing `self.atr.array[-20:]`. -/
structure ICBar where
  price : ℝ
  atr : ℝ
  atr_hist : List ℝ

/-- Running the volatility bookkeeping over a whole bar sequence from the
initial state. -/
noncomputable def icRun (bars : List ICBar) : ICState :=
  bars.foldl (fun s b => icStep s b.price b.atr b.atr_hist) icInit

/-! ### Spec-side definitions for the historical-volatility claim (C8):
these follow the spec's wording ("the sample standard deviation of the log
returns over the most recent 20 closes, annualized by sqrt 252") and are
compared against the code-side `calculate_historical_volatility`. -/

/-- The most recent `n` elements of a chronological series, in chronological
order. -/
def lastN (n : ℕ) (l : List ℝ) : List ℝ := (l.reverse.take n).reverse

/-- Log returns of consecutive closes of a chronological series. -/
noncomputable def logReturns (l : List ℝ) : List ℝ :=
  List.zipWith (fun a b => Real.log (b / a)) l l.tail

/-- Standard deviation of a sample, with divisor `n` (the standard deviation
of the empirical distribution of the sample — the code's
`variance = sum((r - mean)**2) / len(returns)`). -/
noncomputable def stdDev (l : List ℝ) : ℝ :=
  Real.sqrt ((l.map fun x => (x - l.sum / (l.length : ℝ)) ^ 2).sum / (l.length : ℝ))

/-! ### Helper lemmas for rounding -/

theorem roundHalfEven_le (x : ℚ) : (roundHalfEven x : ℚ) ≤ x + 1/2 := by
  unfold roundHalfEven
  have h0 : (⌊x⌋ : ℚ) ≤ x := Int.floor_le x
  have h1 : x < (⌊x⌋ : ℚ) + 1 := Int.lt_floor_add_one x
  by_cases hc : x - (⌊x⌋ : ℚ) < 1/2
  · simp only [hc, if_true]
    linarith
  · simp only [hc, if_false]
    push_neg at hc
    by_cases hc2 : 1/2 < x - (⌊x⌋ : ℚ)
    · simp only [hc2, if_true]
      push_cast
      linarith
    · simp only [hc2, if_false]
      push_neg at hc2
      by_cases he : ⌊x⌋ % 2 = 0
      · simp only [he, if_true]
        linarith
      · simp only [he, if_false]
        push_cast
        linarith

theorem le_roundHalfEven (x : ℚ) : x - 1/2 ≤ (roundHalfEven x : ℚ) := by
  unfold roundHalfEven
  have h0 : (⌊x⌋ : ℚ) ≤ x := Int.floor_le x
  have h1 : x < (⌊x⌋ : ℚ) + 1 := Int.lt_floor_add_one x
  by_cases hc : x - (⌊x⌋ : ℚ) < 1/2
  · simp only [hc, if_true]
    linarith
  · simp only [hc, if_false]
    push_neg at hc
    by_cases hc2 : 1/2 < x - (⌊x⌋ : ℚ)
    · simp only [hc2, if_true]
      push_cast
      linarith
    · simp only [hc2, if_false]
      by_cases he : ⌊x⌋ % 2 = 0
      · simp only [he, if_true]
        linarith
      · simp only [he, if_false]
        push_cast
        linarith

/-- Two rationals more than one apart round to strictly increasing integers. -/
theorem roundHalfEven_lt_of_add_one_lt {x y : ℚ} (h : x + 1 < y) :
    roundHalfEven x < roundHalfEven y := by
  have hx := roundHalfEven_le x
  have hy := le_roundHalfEven y
  have : (roundHalfEven x : ℚ) < (roundHalfEven y : ℚ) := by linarith
  exact_mod_cast this

theorem round2_lt_of_gap {x y : ℚ} (h : x + 1/100 < y) : round2 x < round2 y := by
  unfold round2
  have h100 : (100 : ℚ) * x + 1 < 100 * y := by linarith
  have := roundHalfEven_lt_of_add_one_lt h100
  have hq : (roundHalfEven (100 * x) : ℚ) < (roundHalfEven (100 * y) : ℚ) := by
    exact_mod_cast this
  linarith

/-! ### Properties of the standard normal CDF -/

theorem normPdf_nonneg (t : ℝ) : 0 ≤ normPdf t :=
  mul_nonneg (inv_nonneg.mpr (Real.sqrt_nonneg _)) (Real.exp_pos _).le

theorem normPdf_even (t : ℝ) : normPdf (-t) = normPdf t := by
  simp [normPdf, neg_sq]

theorem integrable_normPdf : Integrable normPdf := by
  have h : normPdf = fun t => (Real.sqrt (2 * Real.pi))⁻¹ * Real.exp (-(1/2) * t ^ 2) := by
    funext t
    simp only [normPdf]
    ring_nf
  rw [h]
  exact (integrable_exp_neg_mul_sq (by norm_num : (0:ℝ) < 1/2)).const_mul _

theorem integral_normPdf : ∫ t, normPdf t = 1 := by
  have h : ∫ t, normPdf t
      = (Real.sqrt (2 * Real.pi))⁻¹ * ∫ t : ℝ, Real.exp (-(1/2) * t ^ 2) := by
    rw [← integral_mul_left]
    congr 1
    funext t
    simp only [normPdf]
    ring_nf
  rw [h, integral_gaussian, show Real.pi / (1/2) = 2 * Real.pi by ring]
  exact inv_mul_cancel₀ (ne_of_gt (Real.sqrt_pos.mpr (by positivity)))

theorem normCdf_eq_Ioi (x : ℝ) : normCdf (-x) = ∫ t in Ioi x, normPdf t := by
  have h1 : (∫ t in Iic (-x), normPdf t) = ∫ t in Iic (-x), normPdf (-t) := by
    refine setIntegral_congr_fun measurableSet_Iic fun t _ => (normPdf_even t).symm
  rw [normCdf, h1, integral_comp_neg_Iic, neg_neg]

theorem normCdf_add_normCdf_neg (x : ℝ) : normCdf x + normCdf (-x) = 1 := by
  rw [normCdf_eq_Ioi, normCdf, ← integral_normPdf]
  exact intervalIntegral.integral_Iic_add_Ioi integrable_normPdf.integrableOn
    integrable_normPdf.integrableOn

theorem normCdf_nonneg (x : ℝ) : 0 ≤ normCdf x :=
  setIntegral_nonneg measurableSet_Iic fun t _ => normPdf_nonneg t

theorem normCdf_le_one (x : ℝ) : normCdf x ≤ 1 := by
  have h := normCdf_add_normCdf_neg x
  have h2 := normCdf_nonneg (-x)
  linarith

theorem normCdf_mono {a b : ℝ} (h : a ≤ b) : normCdf a ≤ normCdf b := by
  refine setIntegral_mono_set integrable_normPdf.integrableOn
    (ae_of_all _ normPdf_nonneg) (HasSubset.Subset.eventuallyLE (Iic_subset_Iic.mpr h))

/-- Chernoff-style tail bound for the standard normal distribution: for
`x ≥ 1`, `Φ(-x) ≤ exp (-x² / 2)`. -/
theorem normCdf_neg_le_exp {x : ℝ} (hx : 1 ≤ x) :
    normCdf (-x) ≤ Real.exp (-x ^ 2 / 2) := by
  have hx0 : 0 < x := lt_of_lt_of_le one_pos hx
  set c : ℝ := (Real.sqrt (2 * Real.pi))⁻¹ with hc
  have hc_nonneg : 0 ≤ c := inv_nonneg.mpr (Real.sqrt_nonneg _)
  have hc_le_one : c ≤ 1 := by
    rw [hc]
    have h2pi : (1:ℝ) ≤ 2 * Real.pi := by
      nlinarith [Real.pi_gt_three]
    have h1 : (1:ℝ) ≤ Real.sqrt (2 * Real.pi) := by
      have := Real.sqrt_le_sqrt h2pi
      simpa using this
    exact inv_le_one_of_one_le₀ h1
  have hmono : (∫ t in Ioi x, normPdf t)
      ≤ ∫ t in Ioi x, (c * Real.exp (x ^ 2 / 2)) * Real.exp (-x * t) := by
    refine setIntegral_mono_on integrable_normPdf.integrableOn
      (((exp_neg_integrableOn_Ioi x hx0).const_mul _)) measurableSet_Ioi
      fun t ht => ?_
    have hexp : Real.exp (-t ^ 2 / 2) ≤ Real.exp (x ^ 2 / 2) * Real.exp (-x * t) := by
      rw [← Real.exp_add]
      apply Real.exp_le_exp.mpr
      nlinarith [sq_nonneg (t - x)]
    calc normPdf t = c * Real.exp (-t ^ 2 / 2) := rfl
      _ ≤ c * (Real.exp (x ^ 2 / 2) * Real.exp (-x * t)) :=
          mul_le_mul_of_nonneg_left hexp hc_nonneg
      _ = (c * Real.exp (x ^ 2 / 2)) * Real.exp (-x * t) := by ring
  have hint : (∫ t in Ioi x, (c * Real.exp (x ^ 2 / 2)) * Real.exp (-x * t))
      = (c * Real.exp (x ^ 2 / 2)) * (x⁻¹ * Real.exp (-(x * x))) := by
    rw [integral_mul_left]
    congr 1
    have h1 : (∫ t in Ioi x, Real.exp (-x * t))
        = (∫ t in Ioi x, (fun u => Real.exp (-u)) (x * t)) := by
      congr 1
      funext t
      simp [neg_mul]
    rw [h1, integral_comp_mul_left_Ioi (fun u => Real.exp (-u)) x hx0,
      integral_exp_neg_Ioi, smul_eq_mul]
  rw [normCdf_eq_Ioi]
  calc (∫ t in Ioi x, normPdf t)
      ≤ (c * Real.exp (x ^ 2 / 2)) * (x⁻¹ * Real.exp (-(x * x))) := hmono.trans_eq hint
    _ = (c * x⁻¹) * Real.exp (-x ^ 2 / 2) := by
        rw [show c * Real.exp (x ^ 2 / 2) * (x⁻¹ * Real.exp (-(x * x)))
            = c * x⁻¹ * (Real.exp (x ^ 2 / 2) * Real.exp (-(x * x))) from by ring,
          ← Real.exp_add, show x ^ 2 / 2 + -(x * x) = -x ^ 2 / 2 from by ring]
    _ ≤ 1 * Real.exp (-x ^ 2 / 2) := by
        apply mul_le_mul_of_nonneg_right _ (Real.exp_pos _).le
        have hxinv : x⁻¹ ≤ 1 := inv_le_one_of_one_le₀ hx
        have : c * x⁻¹ ≤ 1 * 1 :=
          mul_le_mul hc_le_one hxinv (inv_nonneg.mpr hx0.le) one_pos.le
        linarith
    _ = Real.exp (-x ^ 2 / 2) := one_mul _

/-! ### Helper lemmas for the implied-volatility round-trip (C2) -/

theorem normCdf_le_exp22 {a : ℝ} (ha : a ≤ -6.7) : normCdf a ≤ Real.exp (-22) := by
  have h1 : normCdf a ≤ normCdf (-(6.7 : ℝ)) := normCdf_mono (by norm_num at ha ⊢; linarith)
  have h2 : normCdf (-(6.7 : ℝ)) ≤ Real.exp (-(6.7 : ℝ) ^ 2 / 2) :=
    normCdf_neg_le_exp (by norm_num)
  have h3 : Real.exp (-(6.7 : ℝ) ^ 2 / 2) ≤ Real.exp (-22) :=
    Real.exp_le_exp.mpr (by norm_num)
  linarith

theorem exp20_mul_normCdf_le_exp22 {a : ℝ} (ha : a ≤ -9.2) :
    Real.exp 20 * normCdf a ≤ Real.exp (-22) := by
  have h1 : normCdf a ≤ normCdf (-(9.2 : ℝ)) := normCdf_mono (by norm_num at ha ⊢; linarith)
  have h2 : normCdf (-(9.2 : ℝ)) ≤ Real.exp (-(9.2 : ℝ) ^ 2 / 2) :=
    normCdf_neg_le_exp (by norm_num)
  have h3 : Real.exp 20 * normCdf a ≤ Real.exp 20 * Real.exp (-(9.2 : ℝ) ^ 2 / 2) :=
    mul_le_mul_of_nonneg_left (by linarith) (Real.exp_pos _).le
  have h4 : Real.exp 20 * Real.exp (-(9.2 : ℝ) ^ 2 / 2) = Real.exp (20 + -(9.2 : ℝ) ^ 2 / 2) :=
    (Real.exp_add _ _).symm
  have h5 : Real.exp (20 + -(9.2 : ℝ) ^ 2 / 2) ≤ Real.exp (-22) :=
    Real.exp_le_exp.mpr (by norm_num)
  linarith

/-- Closed form of the call price at S = 1, K = e²⁰, T = 1, r = 0. -/
theorem bs_call_exp20_eval (sigma : ℝ) (hs : 0 < sigma) :
    black_scholes 1 (Real.exp 20) 1 0 sigma "call" =
      normCdf ((-20 + sigma ^ 2 / 2) / sigma) -
        Real.exp 20 * normCdf ((-20 + sigma ^ 2 / 2) / sigma - sigma) := by
  have hguard : ¬((1:ℝ) ≤ 0 ∨ Real.exp 20 ≤ 0 ∨ (1:ℝ) ≤ 0 ∨ sigma ≤ 0) := by
    push_neg
    exact ⟨one_pos, Real.exp_pos _, one_pos, hs⟩
  simp only [black_scholes, if_neg hguard, if_pos (show lower "call" = "call" from rfl)]
  rw [show (1:ℝ) / Real.exp 20 = (Real.exp 20)⁻¹ from one_div _, Real.log_inv, Real.log_exp]
  norm_num

/-- For the far-out-of-the-money call (K = e²⁰), the price is below e⁻²² at
any volatility whose `d1`/`d2` are below −6.7 and −9.2. -/
theorem bs_call_exp20_small (sigma : ℝ) (hs : 0 < sigma)
    (h1 : (-20 + sigma ^ 2 / 2) / sigma ≤ -6.7)
    (h2 : (-20 + sigma ^ 2 / 2) / sigma - sigma ≤ -9.2) :
    |black_scholes 1 (Real.exp 20) 1 0 sigma "call"| ≤ Real.exp (-22) := by
  rw [bs_call_exp20_eval sigma hs]
  have ha := normCdf_le_exp22 h1
  have hb := exp20_mul_normCdf_le_exp22 h2
  have ha0 := normCdf_nonneg ((-20 + sigma ^ 2 / 2) / sigma)
  have hb0 : 0 ≤ Real.exp 20 * normCdf ((-20 + sigma ^ 2 / 2) / sigma - sigma) :=
    mul_nonneg (Real.exp_pos _).le (normCdf_nonneg _)
  rw [abs_le]
  constructor <;> linarith

theorem exp22_big : (400000 : ℝ) < Real.exp 22 := by
  have h2 : (2 : ℝ) < Real.exp 1 := by
    have := Real.exp_one_gt_d9
    linarith
  have hpow : (2 : ℝ) ^ (22:ℕ) < Real.exp 1 ^ (22:ℕ) :=
    pow_lt_pow_left₀ h2 (by norm_num) (by norm_num)
  rw [Real.exp_one_pow] at hpow
  norm_num at hpow
  linarith

theorem exp_neg22_small : Real.exp (-22) < 1 / 400000 := by
  rw [Real.exp_neg, show (1:ℝ)/400000 = ((400000:ℝ))⁻¹ from one_div _]
  exact inv_strictAnti₀ (by norm_num) exp22_big

/-- Unfolding one bisection iteration when the early-exit condition holds. -/
theorem bisect_iv_early (S K T r : ℝ) (s : String) (market precision : ℝ)
    (n : ℕ) (lo hi : ℝ)
    (h : |black_scholes S K T r ((lo + hi) / 2) s - market| < precision) :
    bisect_iv S K T r s market precision (n + 1) lo hi = (lo + hi) / 2 := by
  simp only [bisect_iv]
  rw [if_pos h]

/-- The early-exit event holds whenever the first midpoint already prices
within precision. -/
theorem bisect_hits_early (S K T r : ℝ) (s : String) (market precision : ℝ)
    (n : ℕ) (lo hi : ℝ)
    (h : |black_scholes S K T r ((lo + hi) / 2) s - market| < precision) :
    bisect_hits S K T r s market precision (n + 1) lo hi := by
  simp only [bisect_hits]
  exact Or.inl h

/-- Whenever the early-exit event fires within the fuel budget, the value the
bisection returns reprices the option within `precision` of the market
price. -/
theorem bisect_iv_price_accuracy (S K T r : ℝ) (s : String) (market precision : ℝ) :
    ∀ (n : ℕ) (lo hi : ℝ), bisect_hits S K T r s market precision n lo hi →
      |black_scholes S K T r (bisect_iv S K T r s market precision n lo hi) s - market|
        < precision := by
  intro n
  induction n with
  | zero =>
    intro lo hi h
    exact absurd h (by simp [bisect_hits])
  | succ n ih =>
    intro lo hi h
    simp only [bisect_hits] at h
    simp only [bisect_iv]
    by_cases hc : |black_scholes S K T r ((lo + hi) / 2) s - market| < precision
    · rw [if_pos hc]
      exact hc
    · rw [if_neg hc]
      rcases h with h | h
      · exact absurd h hc
      · by_cases hlt : black_scholes S K T r ((lo + hi) / 2) s < market
        · rw [if_pos hlt] at h ⊢
          exact ih _ _ h
        · rw [if_neg hlt] at h ⊢
          exact ih _ _ h

/-- At-the-money unit inputs keep the call price in [−1, 1] (both CDF terms
lie in [0, 1]). -/
theorem bs_unit_abs_le (sigma : ℝ) (hs : 0 < sigma) :
    |black_scholes 1 1 1 0 sigma "call"| ≤ 1 := by
  have hguard : ¬((1:ℝ) ≤ 0 ∨ (1:ℝ) ≤ 0 ∨ (1:ℝ) ≤ 0 ∨ sigma ≤ 0) := by
    push_neg
    exact ⟨one_pos, one_pos, one_pos, hs⟩
  simp only [black_scholes, if_neg hguard, if_pos (show lower "call" = "call" from rfl)]
  have h1 := normCdf_nonneg ((Real.log (1 / 1) + (0 + sigma ^ 2 / 2) * 1) / (sigma * Real.sqrt 1))
  have h2 := normCdf_le_one ((Real.log (1 / 1) + (0 + sigma ^ 2 / 2) * 1) / (sigma * Real.sqrt 1))
  have h3 := normCdf_nonneg ((Real.log (1 / 1) + (0 + sigma ^ 2 / 2) * 1) / (sigma * Real.sqrt 1)
    - sigma * Real.sqrt 1)
  have h4 := normCdf_le_one ((Real.log (1 / 1) + (0 + sigma ^ 2 / 2) * 1) / (sigma * Real.sqrt 1)
    - sigma * Real.sqrt 1)
  rw [abs_le]
  norm_num at h1 h2 h3 h4 ⊢
  constructor <;> linarith

/-! ### Helper lemmas for the volatility estimator -/

theorem stdDev_reverse (l : List ℝ) : stdDev l.reverse = stdDev l := by
  simp [stdDev, List.sum_reverse, List.length_reverse, List.map_reverse]

/-- The code's newest-first return list is the reverse of the chronological
log-return list over the most recent 20 closes. -/
theorem returns_reverse (hist : List ℝ) (h : 20 ≤ hist.length) :
    logReturns (lastN 20 hist) =
      ((List.range 19).map fun i : ℕ =>
        Real.log (hist.reverse.getD i 0 / hist.reverse.getD (i + 1) 0)).reverse := by
  have hlen : 20 ≤ hist.reverse.length := by simpa using h
  obtain ⟨rev, hrev⟩ : ∃ rev, hist.reverse = rev := ⟨hist.reverse, rfl⟩
  rw [hrev] at hlen
  rw [lastN, hrev]
  rcases rev with _ | ⟨a0, rev⟩; · simp at hlen
  rcases rev with _ | ⟨a1, rev⟩; · simp at hlen
  rcases rev with _ | ⟨a2, rev⟩; · simp at hlen
  rcases rev with _ | ⟨a3, rev⟩; · simp at hlen
  rcases rev with _ | ⟨a4, rev⟩; · simp at hlen
  rcases rev with _ | ⟨a5, rev⟩; · simp at hlen
  rcases rev with _ | ⟨a6, rev⟩; · simp at hlen
  rcases rev with _ | ⟨a7, rev⟩; · simp at hlen
  rcases rev with _ | ⟨a8, rev⟩; · simp at hlen
  rcases rev with _ | ⟨a9, rev⟩; · simp at hlen
  rcases rev with _ | ⟨a10, rev⟩; · simp at hlen
  rcases rev with _ | ⟨a11, rev⟩; · simp at hlen
  rcases rev with _ | ⟨a12, rev⟩; · simp at hlen
  rcases rev with _ | ⟨a13, rev⟩; · simp at hlen
  rcases rev with _ | ⟨a14, rev⟩; · simp at hlen
  rcases rev with _ | ⟨a15, rev⟩; · simp at hlen
  rcases rev with _ | ⟨a16, rev⟩; · simp at hlen
  rcases rev with _ | ⟨a17, rev⟩; · simp at hlen
  rcases rev with _ | ⟨a18, rev⟩; · simp at hlen
  rcases rev with _ | ⟨a19, rev⟩; · simp at hlen
  rfl

theorem icStep_close_hist (s : ICState) (price atr : ℝ) (atr_hist : List ℝ) :
    (icStep s price atr atr_hist).close_hist = pushClose s.close_hist price := by
  simp only [icStep]
  split_ifs <;> rfl

theorem icStep_hv (s : ICState) (price atr : ℝ) (atr_hist : List ℝ) :
    (icStep s price atr atr_hist).hv_20 =
      if 20 ≤ (pushClose s.close_hist price).length then
        calculate_historical_volatility (pushClose s.close_hist price) s.hv_20
      else s.hv_20 := by
  simp only [icStep]
  split_ifs <;> rfl

theorem icStep_iv_rank (s : ICState) (price atr : ℝ) (atr_hist : List ℝ) :
    (icStep s price atr atr_hist).iv_rank =
      if 20 ≤ (pushClose s.close_hist price).length ∧
          252 ≤ (pushClose s.close_hist price).length then
        min 1 (max 0 (atr / (2 * ((atr_hist.reverse.take 20).sum / 20))))
      else s.iv_rank := by
  simp only [icStep]
  split_ifs with h1 h2 h3 <;> first | rfl | omega

theorem calc_hv_eq (hist : List ℝ) (hv0 : ℝ) (h : 20 ≤ hist.length) :
    calculate_historical_volatility hist hv0 =
      stdDev (logReturns (lastN 20 hist)) * Real.sqrt 252 := by
  simp only [calculate_historical_volatility, if_neg (not_lt.mpr h)]
  rw [returns_reverse hist h, stdDev_reverse]
  rfl

/-! ### Claim C5: iron-condor exit priority -/

/-- **C5**: In `manage_iron_condor` the three exit triggers are evaluated in the
fixed priority order (1) days-to-expiry ≤ exit threshold, (2) profit fraction ≥
profit-target fraction, (3) loss magnitude exceeds `loss_stop_pct × max_profit`,
and the first matching trigger wins.  In particular, whenever the
expiry-proximity condition holds (hence also when the profit-target condition
holds simultaneously), only the expiry-proximity branch fires. -/
theorem manage_exit_priority (days_left exit_days_left : ℤ)
    (entry_credit current_value max_profit profit_target_pct loss_stop_pct : ℚ) :
    (days_left ≤ exit_days_left →
      manage_exit days_left exit_days_left entry_credit current_value max_profit
        profit_target_pct loss_stop_pct = some .approachingExpiration) ∧
    (exit_days_left < days_left →
      profit_fraction entry_credit current_value max_profit ≥ profit_target_pct →
      manage_exit days_left exit_days_left entry_credit current_value max_profit
        profit_target_pct loss_stop_pct = some .profitTarget) ∧
    (exit_days_left < days_left →
      profit_fraction entry_credit current_value max_profit < profit_target_pct →
      entry_credit - current_value < 0 →
      |entry_credit - current_value| > max_profit * loss_stop_pct →
      manage_exit days_left exit_days_left entry_credit current_value max_profit
        profit_target_pct loss_stop_pct = some .stopLoss) := by
  refine ⟨fun h1 => ?_, fun h1 h2 => ?_, fun h1 h2 h3 h4 => ?_⟩
  · simp only [manage_exit, if_pos h1]
  · simp only [manage_exit, if_neg (not_le.mpr h1), if_pos h2]
  · simp only [manage_exit, if_neg (not_le.mpr h1), if_neg (not_le.mpr h2),
      if_pos (And.intro h3 h4)]

/-- Witness for C5 at a state where the expiry-proximity condition (3 days left
≤ threshold 5) and the profit-target condition (profit fraction 1 ≥ target 1/2)
hold simultaneously: the expiry branch fires. -/
theorem manage_exit_priority_witness :
    (3 : ℤ) ≤ 5 ∧ profit_fraction 2 0 2 ≥ 1/2 ∧
    manage_exit 3 5 2 0 2 (1/2) 2 = some .approachingExpiration :=
  ⟨by norm_num, by norm_num [profit_fraction],
    (manage_exit_priority 3 5 2 0 2 (1/2) 2).1 (by norm_num)⟩

/-! ### Claim C6: put-selling position sizing and margin check -/

/-- **C6**: At single-leg (short put) entry (price above the moving average),
the contract count equals
`max(1, ⌊riskPercentage · portfolioValue / ((strike − premium) · 100)⌋)`, hence
is always ≥ 1; the position is committed only if
`strike · contracts · 100 ≤ cash`, otherwise the trade is skipped and the
lifecycle remains IDLE (`none`). -/
theorem consider_new_position_spec (current_price sma cash portfolio_value
    put_delta risk_percentage : ℚ) (hentry : sma < current_price) :
    1 ≤ max 1 ⌊risk_percentage * portfolio_value /
        ((current_price * (1 - put_delta) -
          current_price * (2/10) * 1 * put_delta) * 100)⌋ ∧
    (current_price * (1 - put_delta) *
        ((max 1 ⌊risk_percentage * portfolio_value /
          ((current_price * (1 - put_delta) -
            current_price * (2/10) * 1 * put_delta) * 100)⌋ : ℤ) : ℚ) * 100 ≤ cash →
      consider_new_position current_price sma cash portfolio_value put_delta
          risk_percentage =
        some ⟨current_price * (2/10) * 1 * put_delta, current_price * (1 - put_delta),
          max 1 ⌊risk_percentage * portfolio_value /
            ((current_price * (1 - put_delta) -
              current_price * (2/10) * 1 * put_delta) * 100)⌋⟩) ∧
    (cash < current_price * (1 - put_delta) *
        ((max 1 ⌊risk_percentage * portfolio_value /
          ((current_price * (1 - put_delta) -
            current_price * (2/10) * 1 * put_delta) * 100)⌋ : ℤ) : ℚ) * 100 →
      consider_new_position current_price sma cash portfolio_value put_delta
        risk_percentage = none) := by
  rw [consider_new_position, if_pos hentry, mul_comm portfolio_value risk_percentage]
  refine ⟨le_max_left _ _, fun h => ?_, fun h => ?_⟩
  · rw [if_pos h]
  · rw [if_neg (not_le.mpr h)]

/-- Witness for C6 at price 100, MA 90, cash 10⁶, portfolio 10⁵, delta 0.3,
risk 2%: one contract (the floor is 0, lifted to the minimum 1), margin
7000 ≤ cash, so the position is committed. -/
theorem consider_new_position_witness :
    (90 : ℚ) < 100 ∧
    (1 : ℤ) ≤ max 1 ⌊(1:ℚ)/50 * 100000 /
        ((100 * (1 - 3/10) - 100 * (2/10) * 1 * (3/10)) * 100)⌋ ∧
    consider_new_position 100 90 1000000 100000 (3/10) (1/50) =
      some ⟨100 * (2/10) * 1 * (3/10), 100 * (1 - 3/10),
        max 1 ⌊(1:ℚ)/50 * 100000 /
          ((100 * (1 - 3/10) - 100 * (2/10) * 1 * (3/10)) * 100)⌋⟩ :=
  ⟨by norm_num,
    (consider_new_position_spec 100 90 1000000 100000 (3/10) (1/50) (by norm_num)).1,
    (consider_new_position_spec 100 90 1000000 100000 (3/10) (1/50) (by norm_num)).2.1
      (by norm_num)⟩

/-! ### Claim C7: option-chain strike ladder -/

/-- **C7** counterexample: at the valid spot price 1/10 (> 0), the strike
ladder produced by `simulate_option_chain` is NOT strictly increasing — the
two-decimal rounding collapses the first two strikes (0.08 and 0.085 both
round to 0.08), refuting the claim's universal strict-monotonicity over all
positive spot prices. -/
theorem chain_strikes_not_strictMono_cex :
    0 < (1:ℚ)/10 ∧ ¬ List.Chain' (· < ·) (chain_strikes (1/10)) := by
  refine ⟨by norm_num, fun h => ?_⟩
  rw [chain_strikes,
    List.chain'_map (fun i : ℕ => round2 ((1:ℚ)/10 * (4/5) + (i : ℚ) * (1/10 * (2/5) / 8))),
    show (9:ℕ) = 8+1 from rfl, List.chain'_range_succ] at h
  have h01 := h 0 (by norm_num)
  norm_num [round2, roundHalfEven] at h01

/-- **C7** (amended): `simulate_option_chain` produces exactly 9 strikes,
evenly spaced with step `0.05 · spot` from `0.8 · spot` to `1.2 · spot`, each
rounded to 2 decimals; the ladder is strictly increasing for every spot
≥ 1/5 (so that the 2-decimal rounding cannot collapse adjacent strikes — for
smaller spots it can); and for `chain(100, 30, 0.2, 0.02)` the strikes are
exactly 80, 85, …, 120, with median strike 100 and min/max strikes 80/120. -/
theorem chain_strikes_ladder (p : ℚ) (hp : 1/5 ≤ p) :
    (chain_strikes p).length = 9 ∧
    chain_strikes p =
      (List.range 9).map (fun i : ℕ => round2 (p * (4/5) + (i : ℚ) * (p / 20))) ∧
    List.Chain' (· < ·) (chain_strikes p) ∧
    chain_strikes 100 = [80, 85, 90, 95, 100, 105, 110, 115, 120] ∧
    (chain_strikes 100).getD 4 0 = 100 ∧
    (chain_strikes 100).getD 0 0 = 80 ∧ (chain_strikes 100).getD 8 0 = 120 := by
  have hlist : chain_strikes 100 = [80, 85, 90, 95, 100, 105, 110, 115, 120] := by
    norm_num [chain_strikes, List.range_succ, round2, roundHalfEven]
  refine ⟨by simp [chain_strikes], ?_, ?_, hlist, by rw [hlist]; rfl,
    by rw [hlist]; rfl, by rw [hlist]; rfl⟩
  · unfold chain_strikes
    refine List.map_congr_left fun i _ => ?_
    congr 1
    ring
  · rw [chain_strikes,
      List.chain'_map (fun i : ℕ => round2 (p * (4/5) + (i : ℚ) * (p * (2/5) / 8))),
      show (9:ℕ) = 8+1 from rfl, List.chain'_range_succ]
    intro m hm
    rcases eq_or_lt_of_le hp with heq | hlt
    · subst heq
      interval_cases m <;> norm_num [round2, roundHalfEven]
    · apply round2_lt_of_gap
      push_cast
      nlinarith [hlt]

/-- Witness for C7 (amended) at spot 100. -/
theorem chain_strikes_ladder_witness :
    (1:ℚ)/5 ≤ 100 ∧
    (List.Chain' (· < ·) (chain_strikes 100) ∧
      chain_strikes 100 = [80, 85, 90, 95, 100, 105, 110, 115, 120]) :=
  ⟨by norm_num,
    (chain_strikes_ladder 100 (by norm_num)).2.2.1,
    (chain_strikes_ladder 100 (by norm_num)).2.2.2.1⟩

/-! ### Claim C1: put-call parity -/

/-- **C1**: For every valid input (S > 0, K > 0, T > 0, σ > 0, any rate r),
the call price minus the put price returned by `black_scholes` equals
`S - K·e^(-rT)` to within 1e-6 (in fact exactly). -/
theorem put_call_parity (S K T r sigma : ℝ)
    (hS : 0 < S) (hK : 0 < K) (hT : 0 < T) (hsig : 0 < sigma) :
    |black_scholes S K T r sigma "call" - black_scholes S K T r sigma "put" -
      (S - K * Real.exp (-r * T))| ≤ 1e-6 := by
  have hguard : ¬(S ≤ 0 ∨ K ≤ 0 ∨ T ≤ 0 ∨ sigma ≤ 0) := by
    push_neg
    exact ⟨hS, hK, hT, hsig⟩
  have hd1 := normCdf_add_normCdf_neg
    ((Real.log (S / K) + (r + sigma ^ 2 / 2) * T) / (sigma * Real.sqrt T))
  have hd2 := normCdf_add_normCdf_neg
    ((Real.log (S / K) + (r + sigma ^ 2 / 2) * T) / (sigma * Real.sqrt T)
      - sigma * Real.sqrt T)
  have key : black_scholes S K T r sigma "call" - black_scholes S K T r sigma "put" =
      S - K * Real.exp (-r * T) := by
    simp only [black_scholes, if_neg hguard,
      if_pos (show lower "call" = "call" from rfl),
      if_neg (show ¬(lower "put" = "call") from by decide)]
    linear_combination S * hd1 - K * Real.exp (-r * T) * hd2
  rw [key, sub_self, abs_zero]
  norm_num

/-- Witness for C1 at S = 1, K = 1, T = 1, r = 0, σ = 1. -/
theorem put_call_parity_witness :
    (0:ℝ) < 1 ∧
    |black_scholes 1 1 1 0 1 "call" - black_scholes 1 1 1 0 1 "put" -
      (1 - 1 * Real.exp (-0 * 1))| ≤ 1e-6 :=
  ⟨one_pos, put_call_parity 1 1 1 0 1 one_pos one_pos one_pos one_pos⟩

/-! ### Claim C3: degenerate inputs return exact zeros -/

/-- **C3**: For every input with S ≤ 0, K ≤ 0, T ≤ 0 or σ ≤ 0 (rate and style
arbitrary), `black_scholes` returns exactly 0 and `calculate_greeks` returns
the bundle with delta, gamma, theta, vega and rho all exactly 0; both
functions are total, so neither raises. -/
theorem degenerate_inputs_zero (S K T r sigma : ℝ) (option_type : String)
    (h : S ≤ 0 ∨ K ≤ 0 ∨ T ≤ 0 ∨ sigma ≤ 0) :
    black_scholes S K T r sigma option_type = 0 ∧
    calculate_greeks S K T r sigma option_type = ⟨0, 0, 0, 0, 0⟩ := by
  constructor
  · simp only [black_scholes, if_pos h]
  · simp only [calculate_greeks, if_pos h]

/-- Witness for C3 at S = 0 (with K = 1, T = 1, r = 0, σ = 1, style "call"). -/
theorem degenerate_inputs_zero_witness :
    ((0:ℝ) ≤ 0 ∨ (1:ℝ) ≤ 0 ∨ (1:ℝ) ≤ 0 ∨ (1:ℝ) ≤ 0) ∧
    black_scholes 0 1 1 0 1 "call" = 0 ∧
    calculate_greeks 0 1 1 0 1 "call" = ⟨0, 0, 0, 0, 0⟩ :=
  ⟨Or.inl le_rfl,
    (degenerate_inputs_zero 0 1 1 0 1 "call" (Or.inl le_rfl)).1,
    (degenerate_inputs_zero 0 1 1 0 1 "call" (Or.inl le_rfl)).2⟩

/-! ### Claim C10: every non-"call" style is silently treated as a put -/

/-- **C10**: In `black_scholes` and `calculate_greeks`, only an `option_type`
whose lowercased value equals `"call"` selects the call branch; every other
string (e.g. `"Put"`, `"PUT"`, `""`, or any unrecognized value) produces
exactly the put price and the put-style greeks, without error. -/
theorem non_call_style_is_put (S K T r sigma : ℝ) (s : String)
    (hs : lower s ≠ "call") :
    black_scholes S K T r sigma s = black_scholes S K T r sigma "put" ∧
    calculate_greeks S K T r sigma s = calculate_greeks S K T r sigma "put" := by
  constructor
  · simp only [black_scholes, if_neg hs,
      if_neg (show ¬(lower "put" = "call") from by decide)]
  · simp only [calculate_greeks, if_neg hs,
      if_neg (show ¬(lower "put" = "call") from by decide)]

/-- Witness for C10 with the unrecognized style string `"PUT"`. -/
theorem non_call_style_is_put_witness :
    lower "PUT" ≠ "call" ∧
    black_scholes 1 1 1 0 1 "PUT" = black_scholes 1 1 1 0 1 "put" ∧
    calculate_greeks 1 1 1 0 1 "PUT" = calculate_greeks 1 1 1 0 1 "put" :=
  ⟨by decide,
    (non_call_style_is_put 1 1 1 0 1 "PUT" (by decide)).1,
    (non_call_style_is_put 1 1 1 0 1 "PUT" (by decide)).2⟩

/-! ### Claim C4: implied-volatility solver boundary policy -/

/-- **C4**: `calculate_iv` applies its boundary guards in order: a market
price strictly below the option's intrinsic value (`max(0, S-K)` for calls,
`max(0, K-S)` for puts) returns 0; otherwise a market price strictly above the
spot (calls) or the strike (puts) returns the upper volatility bound 5.0
(500%) as a sentinel.  The function is total, so it never raises. -/
theorem calculate_iv_boundary (market S K T r precision : ℝ) (mi : ℕ) (s : String) :
    (lower s = "call" → market < max 0 (S - K) →
      calculate_iv market S K T r s precision mi = 0) ∧
    (lower s = "call" → max 0 (S - K) ≤ market → S < market →
      calculate_iv market S K T r s precision mi = 5) ∧
    (lower s ≠ "call" → market < max 0 (K - S) →
      calculate_iv market S K T r s precision mi = 0) ∧
    (lower s ≠ "call" → max 0 (K - S) ≤ market → K < market →
      calculate_iv market S K T r s precision mi = 5) := by
  refine ⟨fun h1 h2 => ?_, fun h1 h2 h3 => ?_, fun h1 h2 => ?_, fun h1 h2 h3 => ?_⟩
  · simp only [calculate_iv, if_pos h1, if_pos h2]
  · simp only [calculate_iv, if_pos h1, if_neg (not_lt.mpr h2), if_pos h3]
  · simp only [calculate_iv, if_neg h1, if_pos h2]
  · simp only [calculate_iv, if_neg h1, if_neg (not_lt.mpr h2), if_pos h3]

/-- Witness for C4: a call with S = 100, K = 90 at market price 1 (below the
intrinsic value 10) yields 0; the same call at market price 150 (above the
spot) yields the sentinel 5.0. -/
theorem calculate_iv_boundary_witness :
    lower "call" = "call" ∧
    (1:ℝ) < max 0 (100 - 90) ∧ calculate_iv 1 100 90 1 0 "call" 1e-5 100 = 0 ∧
    max 0 ((100:ℝ) - 90) ≤ 150 ∧ (100:ℝ) < 150 ∧
    calculate_iv 150 100 90 1 0 "call" 1e-5 100 = 5 :=
  ⟨rfl, by norm_num,
    (calculate_iv_boundary 1 100 90 1 0 1e-5 100 "call").1 rfl (by norm_num),
    by norm_num, by norm_num,
    (calculate_iv_boundary 150 100 90 1 0 1e-5 100 "call").2.1 rfl (by norm_num)
      (by norm_num)⟩

/-! ### Claim C8: historical-volatility recomputation -/

/-- **C8**: The 20-period historical volatility is recomputed only once the
rolling close window holds at least 20 observations, and then equals the
standard deviation of the sample of log returns over the most recent 20
closes, multiplied by `sqrt 252`; below 20 observations it keeps its prior
value, which is initially 0. -/
theorem historical_volatility_spec (s : ICState) (price atr : ℝ) (atr_hist : List ℝ) :
    icInit.hv_20 = 0 ∧
    ((icStep s price atr atr_hist).close_hist.length < 20 →
      (icStep s price atr atr_hist).hv_20 = s.hv_20) ∧
    (20 ≤ (icStep s price atr atr_hist).close_hist.length →
      (icStep s price atr atr_hist).hv_20 =
        stdDev (logReturns (lastN 20 (icStep s price atr atr_hist).close_hist)) *
          Real.sqrt 252) := by
  refine ⟨rfl, fun h => ?_, fun h => ?_⟩
  · rw [icStep_close_hist] at h
    rw [icStep_hv, if_neg (not_le.mpr h)]
  · rw [icStep_close_hist] at h
    rw [icStep_hv, if_pos h, icStep_close_hist, calc_hv_eq _ _ h]

/-- Witness for C8: stepping a state holding 21 constant closes recomputes
`hv_20` to the annualized standard deviation of the window's log returns. -/
theorem historical_volatility_spec_witness :
    20 ≤ (icStep ⟨List.replicate 21 1, 0, 0, 0⟩ 1 1 []).close_hist.length ∧
    (icStep ⟨List.replicate 21 1, 0, 0, 0⟩ 1 1 []).hv_20 =
      stdDev (logReturns (lastN 20
        (icStep ⟨List.replicate 21 1, 0, 0, 0⟩ 1 1 []).close_hist)) * Real.sqrt 252 := by
  have h20 : 20 ≤ (icStep ⟨List.replicate 21 1, 0, 0, 0⟩ 1 1 []).close_hist.length := by
    rw [icStep_close_hist]
    simp [pushClose]
  exact ⟨h20, (historical_volatility_spec ⟨List.replicate 21 1, 0, 0, 0⟩ 1 1 []).2.2 h20⟩

/-! ### Claim C9: the IV rank stays in [0, 1] -/

/-- **C9**: The IV rank is initialized to 0, is only updated once 252 close
observations exist, and every update clamps the ATR ratio into `[0, 1]`; hence
along every run from the initial state the IV rank stays in `[0, 1]`,
regardless of how extreme the ATR values are. -/
theorem iv_rank_clamped :
    icInit.iv_rank = 0 ∧
    (∀ (s : ICState) (price atr : ℝ) (atr_hist : List ℝ),
      (icStep s price atr atr_hist).close_hist.length < 252 →
      (icStep s price atr atr_hist).iv_rank = s.iv_rank) ∧
    (∀ bars : List ICBar, 0 ≤ (icRun bars).iv_rank ∧ (icRun bars).iv_rank ≤ 1) := by
  have hstep : ∀ (s : ICState) (price atr : ℝ) (atr_hist : List ℝ),
      0 ≤ s.iv_rank → s.iv_rank ≤ 1 →
      0 ≤ (icStep s price atr atr_hist).iv_rank ∧
        (icStep s price atr atr_hist).iv_rank ≤ 1 := by
    intro s price atr atr_hist h0 h1
    rw [icStep_iv_rank]
    split_ifs with h
    · exact ⟨le_min (by norm_num) (le_max_left _ _), min_le_left _ _⟩
    · exact ⟨h0, h1⟩
  have hfold : ∀ (bars : List ICBar) (s : ICState), 0 ≤ s.iv_rank → s.iv_rank ≤ 1 →
      0 ≤ (bars.foldl (fun s b => icStep s b.price b.atr b.atr_hist) s).iv_rank ∧
      (bars.foldl (fun s b => icStep s b.price b.atr b.atr_hist) s).iv_rank ≤ 1 := by
    intro bars
    induction bars with
    | nil => exact fun s h0 h1 => ⟨h0, h1⟩
    | cons b bs ih =>
      intro s h0 h1
      have hb := hstep s b.price b.atr b.atr_hist h0 h1
      exact ih _ hb.1 hb.2
  refine ⟨rfl, fun s price atr atr_hist h => ?_, fun bars => ?_⟩
  · rw [icStep_close_hist] at h
    rw [icStep_iv_rank, if_neg]
    intro hc
    exact absurd hc.2 (not_le.mpr h)
  · exact hfold bars icInit le_rfl zero_le_one

/-- Witness for C9: one step from the initial state (1 close < 252) leaves the
IV rank unchanged, and the empty run's IV rank lies in `[0, 1]`. -/
theorem iv_rank_clamped_witness :
    (icStep icInit 1 1 []).close_hist.length < 252 ∧
    (icStep icInit 1 1 []).iv_rank = icInit.iv_rank ∧
    (0 ≤ (icRun []).iv_rank ∧ (icRun []).iv_rank ≤ 1) := by
  have hlt : (icStep icInit 1 1 []).close_hist.length < 252 := by
    rw [icStep_close_hist]
    simp [pushClose, icInit]
  exact ⟨hlt, iv_rank_clamped.2.1 icInit 1 1 [] hlt, iv_rank_clamped.2.2 []⟩

/-! ### Claim C2: implied-volatility round-trip -/

/-- **C2** counterexample: at the valid input S = 1, K = e²⁰, T = 1, r = 0,
σ = 1 ∈ (0, 2], style "call", with the default precision (1e-5) and
max_iterations (100), feeding the Black-Scholes price back into
`calculate_iv` does NOT return a volatility within the configured precision
of σ: the option is so far out of the money that the very first bisection
midpoint (2.5005) already prices within 1e-5 of the market price, so the
solver stops there (or, if the tiny market value is negative, at the
intrinsic-value guard with 0) — either way more than 1.5 away from σ = 1. -/
theorem iv_roundtrip_cex :
    ((0:ℝ) < 1 ∧ 0 < Real.exp 20 ∧ (0:ℝ) < 1 ∧ 0 < (1:ℝ) ∧ (1:ℝ) ≤ 2) ∧
    ¬(|calculate_iv (black_scholes 1 (Real.exp 20) 1 0 1 "call") 1 (Real.exp 20) 1 0 "call"
        0.00001 100 - 1| ≤ 0.00001) := by
  refine ⟨⟨one_pos, Real.exp_pos _, one_pos, one_pos, by norm_num⟩, fun habs => ?_⟩
  have hmkt_small : |black_scholes 1 (Real.exp 20) 1 0 1 "call"| ≤ Real.exp (-22) :=
    bs_call_exp20_small 1 one_pos (by norm_num) (by norm_num)
  have hmid_pos : (0:ℝ) < (0.001 + 5) / 2 := by norm_num
  have hmid_small :
      |black_scholes 1 (Real.exp 20) 1 0 ((0.001 + 5) / 2) "call"| ≤ Real.exp (-22) :=
    bs_call_exp20_small _ hmid_pos (by norm_num) (by norm_num)
  have hdiff : |black_scholes 1 (Real.exp 20) 1 0 ((0.001 + 5) / 2) "call" -
      black_scholes 1 (Real.exp 20) 1 0 1 "call"| < 0.00001 := by
    have h1 := exp_neg22_small
    calc |black_scholes 1 (Real.exp 20) 1 0 ((0.001 + 5) / 2) "call" -
        black_scholes 1 (Real.exp 20) 1 0 1 "call"|
        ≤ |black_scholes 1 (Real.exp 20) 1 0 ((0.001 + 5) / 2) "call"| +
          |black_scholes 1 (Real.exp 20) 1 0 1 "call"| := abs_sub _ _
      _ < 0.00001 := by linarith
  rw [calculate_iv, if_pos (show lower "call" = "call" from rfl)] at habs
  by_cases hm : black_scholes 1 (Real.exp 20) 1 0 1 "call" < max 0 (1 - Real.exp 20)
  · rw [if_pos hm] at habs
    rw [abs_le] at habs
    norm_num at habs
  · rw [if_neg hm] at habs
    have hnotgt : ¬(black_scholes 1 (Real.exp 20) 1 0 1 "call" > 1) := by
      have h1 : black_scholes 1 (Real.exp 20) 1 0 1 "call" ≤ Real.exp (-22) :=
        le_trans (le_abs_self _) hmkt_small
      have h2 : Real.exp (-22) < 1 := Real.exp_lt_one_iff.mpr (by norm_num)
      exact not_lt.mpr (by linarith)
    rw [if_neg hnotgt, show (100:ℕ) = 99 + 1 from rfl,
      bisect_iv_early 1 (Real.exp 20) 1 0 "call" _ 0.00001 99 0.001 5 hdiff] at habs
    rw [abs_le] at habs
    norm_num at habs

/-- **C2** (amended): the solver guarantees accuracy in price space, not in
volatility space.  Whenever the boundary guards pass and the bisection loop's
early-exit fires within the iteration budget (`bisect_hits`), the volatility
returned by `calculate_iv` reprices the option to within `precision` of the
market price; the returned volatility itself need not be within the precision
of the σ that generated the price. -/
theorem calculate_iv_price_accuracy (market S K T r precision : ℝ) (mi : ℕ) (s : String)
    (hguard : (lower s = "call" ∧ ¬market < max 0 (S - K) ∧ ¬market > S) ∨
      (lower s ≠ "call" ∧ ¬market < max 0 (K - S) ∧ ¬market > K))
    (hhits : bisect_hits S K T r s market precision mi 0.001 5) :
    |black_scholes S K T r (calculate_iv market S K T r s precision mi) s - market|
      < precision := by
  rcases hguard with ⟨h1, h2, h3⟩ | ⟨h1, h2, h3⟩
  · rw [calculate_iv, if_pos h1, if_neg h2, if_neg h3]
    exact bisect_iv_price_accuracy S K T r s market precision mi 0.001 5 hhits
  · rw [calculate_iv, if_neg h1, if_neg h2, if_neg h3]
    exact bisect_iv_price_accuracy S K T r s market precision mi 0.001 5 hhits

/-- Witness for C2 (amended) at S = K = T = 1, r = 0, market price 1/2,
precision 10: the guards pass and the very first midpoint prices within the
(loose) precision, so the returned volatility reprices within precision. -/
theorem calculate_iv_price_accuracy_witness :
    ((lower "call" = "call" ∧ ¬(1/2 : ℝ) < max 0 ((1:ℝ) - 1) ∧ ¬(1/2 : ℝ) > (1:ℝ)) ∨
      (lower "call" ≠ "call" ∧ ¬(1/2 : ℝ) < max 0 ((1:ℝ) - 1) ∧ ¬(1/2 : ℝ) > (1:ℝ))) ∧
    bisect_hits 1 1 1 0 "call" (1/2) 10 100 0.001 5 ∧
    |black_scholes 1 1 1 0 (calculate_iv (1/2) 1 1 1 0 "call" 10 100) "call" - 1/2| < 10 := by
  have hhits : bisect_hits 1 1 1 0 "call" (1/2) 10 100 0.001 5 := by
    rw [show (100:ℕ) = 99 + 1 from rfl]
    apply bisect_hits_early
    have h1 := bs_unit_abs_le ((0.001 + 5) / 2) (by norm_num)
    rw [abs_le] at h1
    rw [abs_lt]
    constructor <;> linarith [h1.1, h1.2]
  have hguard : (lower "call" = "call" ∧ ¬(1/2 : ℝ) < max 0 ((1:ℝ) - 1) ∧ ¬(1/2 : ℝ) > (1:ℝ)) ∨
      (lower "call" ≠ "call" ∧ ¬(1/2 : ℝ) < max 0 ((1:ℝ) - 1) ∧ ¬(1/2 : ℝ) > (1:ℝ)) :=
    Or.inl ⟨rfl, by norm_num, by norm_num⟩
  exact ⟨hguard, hhits, calculate_iv_price_accuracy (1/2) 1 1 1 0 10 100 "call" hguard hhits⟩

end BacktraderOptions
